import Mathlib

/-!
Shallow embedding of the workout-tracker application (src/App.js) for
specification checking.  The repository file contains two revisions of the
application concatenated; where the two revisions define the same function
with the same body (the rotation logic, the note parsers) a single Lean
definition embeds both, and where they differ (the history fold, the cached
distinct-date lookup, the workout resolver) both are embedded under
distinct names.

Modelling conventions, stated once:
* JavaScript strings are Lean `String`; `toLowerCase`, `trim`, `split` and
  the default sort order are implemented on the character list (ASCII case
  folding, ASCII whitespace, code-unit comparison) so that every definition
  evaluates by kernel reduction.
* JavaScript numbers are exact rationals `ℚ`; `NaN` is modelled by `none`
  in an `Option ℚ`, or by the explicit `JVal.nan` constructor.  Binary
  floating point rounding is not modelled.
* `undefined` object fields are `Option.none`; the JS value `null` is the
  explicit constructor `JVal.null` where a field can hold it.
* Timestamps from `new Date(y, m, d).getTime()` are modelled as
  days-from-civil-epoch times 86400000, i.e. the local timezone offset is
  taken to be zero.  A date whose numeric parts fail to parse yields the
  timestamp 0 in the model (the code produces NaN there; NaN is falsy and
  its sort behaviour under an inconsistent comparator is
  implementation-defined, so the model folds it into the explicit 0 that
  the function already returns for short or missing date strings).
* The static file seed_data.json is not part of the repository snapshot;
  the seed array is therefore a parameter of every definition that scans
  it, modelled from the spec as a flat list of log entries.
-/

attribute [local semireducible] Rat.add Rat.mul Rat.sub Rat.inv

/-- The value space of loosely typed JS object fields: null, NaN, a number
or a string.  A missing (undefined) field is `Option.none` around this. -/
inductive JVal where
  | null : JVal
  | nan : JVal
  | num : ℚ → JVal
  | str : String → JVal
deriving DecidableEq, Repr

/-- Decimal digits of a natural number, most significant first. -/
def natDigits (n : Nat) : List Char :=
  if h : n < 10 then [Char.ofNat (48 + n)]
  else natDigits (n / 10) ++ [Char.ofNat (48 + n % 10)]
termination_by n
decreasing_by exact Nat.div_lt_self (by omega) (by omega)

/-- Decimal string of a natural number, the template interpolation of a
nonnegative JS integer. -/
def natStr (n : Nat) : String := String.mk (natDigits n)

/-- Decimal string of an integer. -/
def intStr (i : Int) : String :=
  if i < 0 then "-" ++ natStr i.natAbs else natStr i.natAbs

/-- Truncation toward zero, the ToIntegerOrInfinity conversion applied by
the Date constructor to fractional arguments. -/
def jsTrunc (q : ℚ) : Int := if q < 0 then -(Int.floor (-q)) else Int.floor q

/-- Decimal rendering of a rational, modelling String(number) for the
integral values that actually occur in set records; a non-terminating
expansion is cut after 20 fractional digits (JS shortest-roundtrip float
formatting is not modelled further, and no theorem depends on this). -/
def ratToString (q : ℚ) : String :=
  if q.den = 1 then intStr q.num
  else
    let sign := if q < 0 then "-" else ""
    let a := |q|
    let ip := Int.floor a
    let frac := a - ip
    let digits := (List.range 20).foldl
      (fun (st : List Char × ℚ) _ =>
        let d := Int.floor (st.2 * 10)
        (st.1 ++ natDigits d.natAbs, st.2 * 10 - d)) ([], frac)
    sign ++ intStr ip ++ "." ++ String.mk digits.1

/-- String conversion of a JS field value. -/
def jsValToString : JVal → String
  | .null => "null"
  | .nan => "NaN"
  | .num q => ratToString q
  | .str s => s

/-- Whitespace trim on both ends of a character list. -/
def trimChars (cs : List Char) : List Char :=
  ((cs.dropWhile Char.isWhitespace).reverse.dropWhile Char.isWhitespace).reverse

/-- String.prototype.trim, implemented on the character list so that it
evaluates by kernel reduction. -/
def strTrim (s : String) : String := String.mk (trimChars s.data)

/-- String.prototype.toLowerCase (ASCII folding), implemented on the
character list. -/
def strToLower (s : String) : String := String.mk (s.data.map Char.toLower)

/-- String.prototype.split with a one-character separator; every call
site of split in the source uses a single-character separator. -/
def splitOnChar (sep : Char) : List Char → List (List Char)
  | [] => [[]]
  | c :: rest =>
    if c = sep then [] :: splitOnChar sep rest
    else
      match splitOnChar sep rest with
      | cur :: parts => (c :: cur) :: parts
      | [] => [[c]]

/-- Array.prototype.join with a separator string. -/
def strJoin (sep : String) : List String → String
  | [] => ""
  | [a] => a
  | a :: rest => a ++ sep ++ strJoin sep rest

/-- Code-unit comparison of the default string sort: lexicographic
less-than on the character values. -/
def strLtChars : List Char → List Char → Bool
  | [], [] => false
  | [], _ :: _ => true
  | _ :: _, [] => false
  | a :: as, b :: bs =>
    if a.toNat < b.toNat then true
    else if b.toNat < a.toNat then false
    else strLtChars as bs

/-- Non-strict default string order used by the sort comparator. -/
def jsStrLe (a b : String) : Bool := !(strLtChars b.data a.data)

/-- Insert into a sorted list, before the first element it is
less-or-equal to; keeps earlier-original elements first on ties. -/
def insertSorted (le : α → α → Bool) (x : α) : List α → List α
  | [] => [x]
  | y :: ys => if le x y then x :: y :: ys else y :: insertSorted le x ys

/-- Stable insertion sort.  Array.prototype.sort is required to be stable
and, under the consistent comparators used here, every stable sort
produces this same ordering. -/
def insertionSort (le : α → α → Bool) : List α → List α
  | [] => []
  | x :: xs => insertSorted le x (insertionSort le xs)

/-- Parse a list of decimal digit characters; `none` when a non-digit is
present or the list is empty. -/
def parseDigits : List Char → Option Nat
  | [] => none
  | cs =>
    if cs.all Char.isDigit then
      some (cs.foldl (fun acc c => 10 * acc + (c.toNat - 48)) 0)
    else none

/-- Numeric value of a digit list that is known to contain only digits,
the parseInt conversion of a matched digit run. -/
def digitsToNat (cs : List Char) : Nat :=
  cs.foldl (fun acc c => 10 * acc + (c.toNat - 48)) 0

/-- The Number(string) coercion: trimmed empty string is 0, an optional
sign followed by decimal digits with an optional fraction is its value,
anything else is NaN (`none`).  Hexadecimal and exponent literals are not
modelled; no input of the theorems uses them. -/
def jsStrToNumber (s : String) : Option ℚ :=
  let t := trimChars s.data
  if t = [] then some 0
  else
    let (sgn, body) : ℚ × List Char :=
      match t with
      | '-' :: r => (-1, r)
      | '+' :: r => (1, r)
      | r => (1, r)
    match splitOnChar '.' body with
    | [ip] => (parseDigits ip).map (fun n => sgn * n)
    | [ip, fp] =>
      if ip = [] ∧ fp = [] then none
      else
        let ipv : Option Nat := if ip = [] then some 0 else parseDigits ip
        let fpv : Option Nat := if fp = [] then some 0 else parseDigits fp
        match ipv, fpv with
        | some i, some f => some (sgn * ((i : ℚ) + (f : ℚ) / ((10 : ℚ) ^ fp.length)))
        | _, _ => none
    | _ => none

/-- The Number coercion on a JS field value; `none` is NaN. -/
def jsToNumberV : JVal → Option ℚ
  | .null => some 0
  | .nan => none
  | .num q => some q
  | .str s => jsStrToNumber s

/-- parseInt(s, 10): skip leading whitespace, optional sign, then the
leading digit run; NaN (`none`) when no digit follows. -/
def jsParseInt (s : String) : Option Int :=
  let cs := s.data.dropWhile Char.isWhitespace
  let (sgn, body) : Int × List Char :=
    match cs with
    | '-' :: r => (-1, r)
    | '+' :: r => (1, r)
    | r => (1, r)
  let run := body.takeWhile Char.isDigit
  if run = [] then none else some (sgn * digitsToNat run)

/-- Leftmost maximal digit run of a character list, the match of the
regular expression (\d+). -/
def firstDigitRun : List Char → Option (List Char)
  | [] => none
  | c :: rest =>
    if c.isDigit then some (c :: rest.takeWhile Char.isDigit)
    else firstDigitRun rest

/-- Substring containment, the String.prototype.includes test. -/
def jsIncludes (hay needle : String) : Bool :=
  decide (needle.data <:+: hay.data)

/-- Civil-calendar day count from 1970-01-01 for a year, a month in 1..12
and a day, by the standard era decomposition (valid for all integers). -/
def daysFromCivil (y m d : Int) : Int :=
  let y2 := if m ≤ 2 then y - 1 else y
  let era := Int.fdiv y2 400
  let yoe := y2 - era * 400
  let mp := if 2 < m then m - 3 else m + 9
  let doy := Int.fdiv (153 * mp + 2) 5 + d - 1
  let doe := yoe * 365 + Int.fdiv yoe 4 - Int.fdiv yoe 100 + doy
  era * 146097 + doe - 719468

/-- Inverse of daysFromCivil: (year, month 1..12, day) of a civil day
count. -/
def civilFromDays (z0 : Int) : Int × Int × Int :=
  let z := z0 + 719468
  let era := Int.fdiv z 146097
  let doe := z - era * 146097
  let yoe := Int.fdiv (doe - Int.fdiv doe 1460 + Int.fdiv doe 36524 - Int.fdiv doe 146096) 365
  let y := yoe + era * 400
  let doy := doe - (365 * yoe + Int.fdiv yoe 4 - Int.fdiv yoe 100)
  let mp := Int.fdiv (5 * doy + 2) 153
  let d := doy - Int.fdiv (153 * mp + 2) 5 + 1
  let m := if mp < 10 then mp + 3 else mp - 9
  (if m ≤ 2 then y + 1 else y, m, d)

/-- Millisecond timestamp of new Date(year, monthIndex, day).getTime() at
timezone offset zero: month overflow rolls into the year and day overflow
rolls into the month. -/
def mkDateTime (year monthIndex day : Int) : Int :=
  let ym := year * 12 + monthIndex
  let y := Int.fdiv ym 12
  let m := Int.fmod ym 12
  (daysFromCivil y (m + 1) 1 + (day - 1)) * 86400000

/-- Timestamp of a slash-separated M/D/Y date string: zero for missing or
short strings (and, in this model, for strings whose parts are not
numbers), two-digit years shifted into 2000..2099. -/
def parseWorkoutDate (dateStr : String) : Int :=
  let parts := (splitOnChar '/' dateStr.data).map (fun cs => jsStrToNumber (String.mk cs))
  if parts.length < 3 then 0
  else
    match parts[0]?, parts[1]?, parts[2]? with
    | some (some m), some (some d), some (some y) =>
      let year : ℚ := if y < 100 then 2000 + y else y
      mkDateTime (jsTrunc year) (jsTrunc (m - 1)) (jsTrunc d)
    | _, _, _ => 0

/-- A set record inside a log entry; every field is loosely typed and
possibly absent. -/
structure SetEntry where
  weight : Option JVal := none
  reps : Option JVal := none
  modifier : Option JVal := none
deriving DecidableEq, Repr

/-- A history or seed log entry; absent fields are `none`. -/
structure LogEntry where
  type : Option String := none
  date : Option String := none
  exercise : Option String := none
  notes : Option String := none
  note : Option String := none
  weight : Option JVal := none
  sets : Option (List SetEntry) := none
  completedAt : Option String := none
deriving DecidableEq, Repr

/-- Truthiness of a possibly absent string field: present and nonempty. -/
def strTruthy : Option String → Bool
  | some s => s ≠ ""
  | none => false

/-- The value of a possibly absent string field under the idiom
(field or empty string). -/
def strOrEmpty : Option String → String
  | some s => s
  | none => ""

/-- The notes-or-note fallback String(log.notes or log.note or empty). -/
def notesOrNote (log : LogEntry) : String :=
  if strTruthy log.notes then strOrEmpty log.notes
  else if strTruthy log.note then strOrEmpty log.note
  else ""

/-- Timestamp of a possibly absent date field; an absent or non-string
date yields 0, as in the guard clause of the source function. -/
def parseWorkoutDateField : Option String → Int
  | some s => parseWorkoutDate s
  | none => 0

/-- Membership in the regex word class [A-Za-z0-9_]. -/
def isWordChar (c : Char) : Bool := c.isAlpha || c.isDigit || c = '_'

/-- Word boundary after a match: end of input or a non-word character. -/
def boundaryAfter : List Char → Bool
  | [] => true
  | x :: _ => !(isWordChar x)

/-- Second alternative of the year pattern: two digits followed by a word
boundary. -/
def tryYearTwo (cs : List Char) : Option (List Char) :=
  match cs with
  | a :: b :: r => if a.isDigit && b.isDigit && boundaryAfter r then some [a, b] else none
  | _ => none

/-- Both alternatives of (20\d{2}|\d{2}) at a fixed position, in regex
alternation order: the four-digit 20xx form first, then two digits. -/
def tryYearAt (cs : List Char) : Option (List Char) :=
  match cs with
  | '2' :: '0' :: a :: b :: r =>
    if a.isDigit && b.isDigit && boundaryAfter r then some ['2', '0', a, b]
    else tryYearTwo cs
  | _ => tryYearTwo cs

/-- Leftmost match of the year regex with a word boundary on both sides;
the boolean carries whether the current position sits at a boundary. -/
def findYearAux : Bool → List Char → Option (List Char)
  | _, [] => none
  | bnd, c :: rest =>
    match (if bnd then tryYearAt (c :: rest) else none) with
    | some m => some m
    | none => findYearAux (!(isWordChar c)) rest

/-- The q.match of the year regex over the whole query string. -/
def findYearToken (q : String) : Option (List Char) := findYearAux true q.data

/-- Month names and abbreviations with their zero-based index. -/
def monthTable : List (String × String × Nat) :=
  [("january", "jan", 0), ("february", "feb", 1), ("march", "mar", 2),
   ("april", "apr", 3), ("may", "may", 4), ("june", "jun", 5),
   ("july", "jul", 6), ("august", "aug", 7), ("september", "sep", 8),
   ("october", "oct", 9), ("november", "nov", 10), ("december", "dec", 11)]

/-- Month-plus-optional-year clause of the search matcher: some month name
or abbreviation occurs in the query, and the parsed year (when one is
found) together with the month index agrees with the log date. -/
def monthNameMatches (q : String) (logYear logMonth : Int) : Bool :=
  monthTable.any (fun e =>
    (jsIncludes q e.1 || jsIncludes q e.2.1) &&
    (match findYearToken q with
     | some m =>
       let year : Option Int :=
         if m.length = 2 then (jsParseInt (String.mk m)).map (fun v => 2000 + v)
         else jsParseInt (String.mk m)
       match year with
       | some y => decide (logYear = y) && decide (logMonth = (e.2.2 : Int) + 1)
       | none => decide (logMonth = (e.2.2 : Int) + 1)
     | none => decide (logMonth = (e.2.2 : Int) + 1)))

/-- Month/day clause: a two-part split where both parts are numeric and
parse to the month and day of the log date. -/
def twoPartDateMatches (parts : List String) (logMonth logDay : Int) : Bool :=
  match parts with
  | [a, b] =>
    (jsStrToNumber a).isSome && (jsStrToNumber b).isSome &&
    jsParseInt a == some logMonth && jsParseInt b == some logDay
  | _ => false

/-- Return true when the search query matches this log: empty query, a
substring of the exercise or date, a numeric month/day pair, or a month
name with an optional year. -/
def searchMatchesLog (search : String) (log : LogEntry) : Bool :=
  let q := strToLower (strTrim search)
  if q = "" then true
  else if strTruthy log.exercise && jsIncludes (strToLower (strOrEmpty log.exercise)) q then true
  else if strTruthy log.date && jsIncludes (strToLower (strOrEmpty log.date)) q then true
  else
    let t := parseWorkoutDateField log.date
    if t = 0 then false
    else
      let c := civilFromDays (Int.fdiv t 86400000)
      let logYear := c.1
      let logMonth := c.2.1
      let logDay := c.2.2
      let bySlash := (splitOnChar '/' q.data).map (fun cs => String.mk (trimChars cs))
      let byDash := (splitOnChar '-' q.data).map (fun cs => String.mk (trimChars cs))
      if twoPartDateMatches bySlash logMonth logDay then true
      else if twoPartDateMatches byDash logMonth logDay then true
      else monthNameMatches q logYear logMonth

/-- Filter of the history screen session list: entries with a truthy date
that match the current search. -/
def historyScreenFiltered (search : String) (history : List LogEntry) : List LogEntry :=
  history.filter (fun h => strTruthy h.date && searchMatchesLog search h)

/-- Property key of an entry grouped by date: the string itself, or the
string rendering of undefined for an absent date. -/
def dateKey : Option String → String
  | some s => s
  | none => "undefined"

/-- Type filter of the distinct-date scan: a truthy type whose lower case
form contains the lower-cased type key. -/
def typeMatches (typeKey : String) (d : LogEntry) : Bool :=
  strTruthy d.type && jsIncludes (strToLower (strOrEmpty d.type)) (strToLower typeKey)

/-- Append an entry to its date group, creating the group at the end on
first occurrence, as property insertion on a plain object does for
non-index keys. -/
def insertGroup : List (String × List LogEntry) → String → LogEntry → List (String × List LogEntry)
  | [], k, d => [(k, [d])]
  | (k2, v) :: rest, k, d =>
    if k2 = k then (k2, v ++ [d]) :: rest else (k2, v) :: insertGroup rest k d

/-- Group entries by date key, keys in first-occurrence order.  Object
key enumeration would list array-index-like keys first; the date keys of
this application contain slashes and are never array indices, so plain
insertion order is the faithful model. -/
def groupByDate (l : List LogEntry) : List (String × List LogEntry) :=
  l.foldl (fun m d => insertGroup m (dateKey d.date) d) []

/-- Exercise signature of the entries of one date: lower-cased trimmed
names, sorted by the default string sort, joined with a bar. -/
def dateSignature (entries : List LogEntry) : String :=
  strJoin "|"
    (insertionSort jsStrLe (entries.map (fun e => strToLower (strTrim (strOrEmpty e.exercise)))))

/-- Descending comparator on parsed dates used to order the group list. -/
def dateGroupLe (a b : String × List LogEntry) : Bool :=
  decide (parseWorkoutDate b.1 ≤ parseWorkoutDate a.1)

/-- Collection loop of getDistinctSessionDates: walk the date groups in
order, skip a date whose signature was already seen, and stop as soon as
the result has reached the requested count.  The count test runs after
the push, exactly as in the source. -/
def distinctLoop (count : Nat) :
    List (String × List LogEntry) → List String → List String → List String
  | [], _, acc => acc
  | (date, entries) :: rest, seen, acc =>
    let sig := dateSignature entries
    if sig ∈ seen then distinctLoop count rest seen acc
    else
      let acc2 := acc ++ [date]
      if count ≤ acc2.length then acc2
      else distinctLoop count rest (sig :: seen) acc2

/-- From workout history, up to count session dates with pairwise distinct
exercise signatures, newest first.  Both revisions compute this same
function; the second revision wraps it in a cache modelled separately. -/
def getDistinctSessionDates (data : List LogEntry) (typeKey : String) (count : Nat) : List String :=
  let filtered := data.filter (typeMatches typeKey)
  let byDate := groupByDate filtered
  let dates := insertionSort dateGroupLe byDate
  distinctLoop count dates [] []

/-- Result of resolving the current workout: label, source date and
exercise list. -/
structure Workout where
  type : String
  date : Option String
  exercises : List LogEntry
deriving DecidableEq, Repr

/-- Stored override for one (type, variation) slot. -/
structure OvData where
  exercises : Option (List LogEntry) := none
  lastCompletedDate : Option String := none
deriving DecidableEq, Repr

/-- First-occurrence deduplication, the spread of a Set built from an
array. -/
def dedupFirst : List (Option String) → List (Option String)
  | [] => []
  | x :: xs => x :: dedupFirst (xs.filter (fun y => y ≠ x))
termination_by l => l.length
decreasing_by
  exact Nat.lt_succ_of_le (List.length_filter_le _ _)

/-- Descending comparator on parsed dates over possibly absent date
values. -/
def dateFieldLe (a b : Option String) : Bool :=
  decide (parseWorkoutDateField b ≤ parseWorkoutDateField a)

/-- Remove the first period of a string, String.prototype.replace with a
plain one-character pattern. -/
def removeFirstDot : List Char → List Char
  | [] => []
  | c :: r => if c = '.' then r else c :: removeFirstDot r

/-- Test for the Marty St Louis exercise, period-insensitive. -/
def isMartyName : Option String → Bool
  | some s => strToLower (strTrim (String.mk (removeFirstDot s.data))) = "marty st louis"
  | none => false

/-- The KOT placeholder exercise: Marty St Louis with three empty sets,
reusing the note of the original entry when present.  The flag selects the
second-revision shape whose sets carry an explicit null modifier. -/
def martyExercise (originalMarty : Option LogEntry) (withModifier : Bool) : LogEntry :=
  let emptySet : SetEntry :=
    if withModifier then
      { weight := some (JVal.str ""), reps := some (JVal.str ""), modifier := some JVal.null }
    else { weight := some (JVal.str ""), reps := some (JVal.str "") }
  { exercise := some "Marty St Louis",
    note := some (match originalMarty with
      | some m => if strTruthy m.note then strOrEmpty m.note else ""
      | none => ""),
    sets := some [emptySet, emptySet, emptySet] }

/-- Non-override path of the first-revision workout resolver: the Legs
special cases, then the Push/Pull distinct-template lookup. -/
def currentWorkout1Lookup (seed : List LogEntry) (todaysType variation : String) : Workout :=
  if todaysType = "Legs" then
    let heavyKey := "heavy legs and shoulders"
    let kotKey := "kot"
    let heavySessions := seed.filter (fun d => strTruthy d.type && jsIncludes (strToLower (strOrEmpty d.type)) heavyKey)
    let kotSessions := seed.filter (fun d => strTruthy d.type && jsIncludes (strToLower (strOrEmpty d.type)) kotKey)
    if variation = "KOT" then
      let uniqueDates := insertionSort dateFieldLe (dedupFirst (kotSessions.map (fun d => d.date)))
      let targetDate : Option String := (uniqueDates.head?).getD none
      let exercisesForDate := kotSessions.filter (fun d => d.date == targetDate)
      let originalMarty := exercisesForDate.find? (fun ex => isMartyName ex.exercise)
      let otherExercises := exercisesForDate.filter (fun ex => !(isMartyName ex.exercise))
      { type := "KOT", date := targetDate,
        exercises := martyExercise originalMarty false :: otherExercises }
    else
      let distinctDates := getDistinctSessionDates seed heavyKey 2
      let targetIdx := if variation = "A" then 0 else 1
      let targetDate : Option String :=
        match distinctDates.get? targetIdx with
        | some s => if s = "" then distinctDates.get? 0 else some s
        | none => distinctDates.get? 0
      { type := "Heavy Legs and Shoulders", date := targetDate,
        exercises := heavySessions.filter (fun d => d.date == targetDate) }
  else
    let searchKey := todaysType
    let distinctDates := getDistinctSessionDates seed searchKey 3
    let targetIdx := if variation = "A" then 0 else if variation = "B" then 1 else 2
    let targetDate : Option String :=
      match distinctDates.get? targetIdx with
      | some s => some s
      | none => distinctDates.get? 0
    let filtered := seed.filter (fun d => typeMatches searchKey d && d.date == targetDate)
    { type := match filtered.head? with
        | some e => if strTruthy e.type then strOrEmpty e.type else searchKey
        | none => searchKey,
      date := targetDate,
      exercises := filtered }

/-- First-revision workout resolver: a nonempty override exercise list
short-circuits the lookup. -/
def currentWorkout1 (seed : List LogEntry) (overrides : String → String → Option OvData)
    (todaysType variation : String) : Workout :=
  match (overrides todaysType variation).bind (fun o => o.exercises) with
  | some l =>
    if l ≠ [] then
      { type := if todaysType = "Legs" then "Heavy Legs and Shoulders" else todaysType,
        date := some "Custom",
        exercises := l }
    else currentWorkout1Lookup seed todaysType variation
  | none => currentWorkout1Lookup seed todaysType variation

/-- The fixed nine-slot rotation, in source order. -/
def WORKOUT_SEQUENCE : List (String × String) :=
  [("Push", "A"), ("Pull", "A"), ("Legs", "A"),
   ("Push", "B"), ("Pull", "B"), ("Legs", "B"),
   ("Push", "C"), ("Pull", "C"), ("Legs", "KOT")]

/-- The single persistence key of the rotation position. -/
def lastWorkoutKey : String := "workout_tracker_last_completed"

/-- Array.prototype.findIndex: index of the first match, or minus one. -/
def jsFindIndex (p : α → Bool) (l : List α) : Int :=
  match l.findIdx? p with
  | some i => (i : Int)
  | none => -1

/-- Rotation advance of onFinish: index of the completed pair in the
sequence, plus one, modulo the sequence length.  Identical in both
revisions; there is no negative-index guard here. -/
def onFinishNext (completed : String × String) : Option (String × String) :=
  let idx := jsFindIndex (fun w => w.1 == completed.1 && w.2 == completed.2) WORKOUT_SEQUENCE
  let nextIdx := (idx + 1).emod (WORKOUT_SEQUENCE.length : Int)
  WORKOUT_SEQUENCE.get? nextIdx.toNat

/-- Outcome of reading and parsing the persisted rotation key: no stored
value (also covering a stored value that parses to a falsy result), a
read or parse failure caught by the handler, or a parsed object with its
two fields. -/
inductive StoredRead where
  | missing : StoredRead
  | failed : StoredRead
  | obj : Option String → Option String → StoredRead
deriving DecidableEq, Repr

/-- Startup suggestion of setNext: successor of the stored pair when it
occurs in the sequence, the first slot otherwise; a caught failure also
yields the first slot.  Identical in both revisions. -/
def setNextSuggested : StoredRead → Option (String × String)
  | .missing => WORKOUT_SEQUENCE.get? 0
  | .failed => WORKOUT_SEQUENCE.get? 0
  | .obj t v =>
    let idx := jsFindIndex (fun w => some w.1 == t && some w.2 == v) WORKOUT_SEQUENCE
    let nextIdx : Int := if idx < 0 then 0 else (idx + 1).emod (WORKOUT_SEQUENCE.length : Int)
    WORKOUT_SEQUENCE.get? nextIdx.toNat

/-- Notes string rebuilt from a seed-format sets array, so history lookups
over notes work on seed records. -/
def buildNotesFromSeedSets (record : LogEntry) : String :=
  match record.sets with
  | some sets =>
    if sets = [] then ""
    else
      let parts := sets.map (fun s =>
        let w := if s.weight == some (JVal.str "Bodyweight") then "BW"
          else match s.weight with
            | some JVal.null => "0"
            | none => "0"
            | some v => jsValToString v
        let r := match s.reps with
          | some JVal.null => ""
          | none => ""
          | some v => jsValToString v
        w ++ "x" ++ r)
      let note := if strTruthy record.note then strTrim (strOrEmpty record.note) else ""
      if note ≠ "" then strJoin ", " parts ++ " | " ++ note
      else strJoin ", " parts
  | none => ""

/-- Normalization of a history log: keep it when it already has nonblank
notes, otherwise attach notes rebuilt from its sets array. -/
def normalizeHistoryLog (log : LogEntry) : LogEntry :=
  if log.notes ≠ none ∧ strTrim (strOrEmpty log.notes) ≠ "" then log
  else
    let notes := buildNotesFromSeedSets log
    if notes ≠ "" then { log with notes := some notes } else log

/-- Truthiness of the completion stamp of a log entry. -/
def completedTruthy (e : LogEntry) : Bool := strTruthy e.completedAt

/-- First-revision history update of onFinish: spread the old history and
the new session logs into a fresh array. -/
def onFinishHistory1 (history logs : List LogEntry) : List LogEntry := history ++ logs

/-- Second-revision history update of onFinish: normalized seed, then the
completed user logs of the previous history, then the new session logs. -/
def onFinishHistory2 (seed history logs : List LogEntry) : List LogEntry :=
  seed.map normalizeHistoryLog ++ history.filter completedTruthy ++ logs

/-- First digit run of a string as a number, the (\d+) extraction used on
note strings; zero when no digit occurs. -/
def getWeight (s : String) : Nat :=
  match firstDigitRun s.data with
  | some run => digitsToNat run
  | none => 0

/-- Baseline weight of a log: a positive numeric weight field, else the
first number of the notes, else the numeric value of the first set weight
when present and not bodyweight, else zero. -/
def getWeightFromLog (log : LogEntry) : ℚ :=
  let fromField : Option ℚ :=
    match log.weight with
    | some (JVal.num q) => if 0 < q then some q else none
    | _ => none
  match fromField with
  | some q => q
  | none =>
    let fromNotes := getWeight (notesOrNote log)
    if 0 < fromNotes then (fromNotes : ℚ)
    else
      match log.sets.bind List.head? with
      | some fs =>
        if fs.weight ≠ none ∧ fs.weight ≠ some JVal.null ∧
            fs.weight ≠ some (JVal.str "Bodyweight") then
          match jsToNumberV (fs.weight.getD JVal.null) with
          | some q => q
          | none => 0
        else 0
      | none => 0

/-- Rounding half toward positive infinity, Math.round on the positive
values this code produces. -/
def jsRound (q : ℚ) : Int := Int.floor (q + 1 / 2)

/-- Epley one-rep-max estimate: null for nonpositive weight, missing,
non-numeric or nonpositive reps, else round(weight times (1 + reps / 30)).
The source tests reps against zero before converting and NaN after; both
orders return null on exactly the same inputs. -/
def estimated1RM (weight : ℚ) (reps : Option JVal) : Option Int :=
  let repsNum : Option ℚ :=
    match reps with
    | none => none
    | some v => jsToNumberV v
  let repsLeZero : Bool :=
    match repsNum with
    | some r => decide (r ≤ 0)
    | none => false
  if weight ≤ 0 then none
  else if reps = none ∨ reps = some JVal.null then none
  else if repsLeZero then none
  else
    match repsNum with
    | some r => some (jsRound (weight * (1 + r / 30)))
    | none => none

/-- Attempt of the WxR pattern at a fixed position: a digit run, optional
whitespace, the letter x of either case, optional whitespace, a digit
run. -/
def wxrAt (cs : List Char) : Option (Nat × Nat) :=
  let d1 := cs.takeWhile Char.isDigit
  if d1 = [] then none
  else
    let r2 := (cs.drop d1.length).dropWhile Char.isWhitespace
    match r2 with
    | c :: r3 =>
      if c = 'x' ∨ c = 'X' then
        let d2 := (r3.dropWhile Char.isWhitespace).takeWhile Char.isDigit
        if d2 = [] then none else some (digitsToNat d1, digitsToNat d2)
      else none
    | [] => none

/-- Leftmost match of (\d+)\s*x\s*(\d+) over a segment. -/
def findWxR : List Char → Option (Nat × Nat)
  | [] => none
  | c :: rest =>
    match wxrAt (c :: rest) with
    | some p => some p
    | none => findWxR rest

/-- Best-1RM accumulator update: replace when the new value is present and
strictly larger or the accumulator is still empty. -/
def best1RMUpdate (cur : Option Int) (one : Option Int) : Option Int :=
  match one with
  | some o =>
    match cur with
    | none => some o
    | some b => if b < o then some o else some b
  | none => cur

/-- Loop of getBestWeightAnd1RM over the comma-separated note segments. -/
def notesBestLoop : List String → ℚ → Option Int → ℚ × Option Int
  | [], bw, b1 => (bw, b1)
  | seg :: rest, bw, b1 =>
    match findWxR seg.data with
    | some (w, r) =>
      if 0 < w ∧ 0 < r then
        let bw2 := if bw < (w : ℚ) then (w : ℚ) else bw
        let one := estimated1RM (w : ℚ) (some (JVal.num (r : ℚ)))
        notesBestLoop rest bw2 (best1RMUpdate b1 one)
      else notesBestLoop rest bw b1
    | none => notesBestLoop rest bw b1

/-- Loop of getBestWeightAnd1RM over the structured sets array. -/
def setsBestLoop : List SetEntry → ℚ × Option Int → ℚ × Option Int
  | [], st => st
  | s :: rest, (bw, b1) =>
    let w : Option ℚ :=
      if s.weight ≠ none ∧ s.weight ≠ some JVal.null ∧
          s.weight ≠ some (JVal.str "Bodyweight") then
        jsToNumberV (s.weight.getD JVal.null)
      else some 0
    let r : Option ℚ :=
      if s.reps ≠ none ∧ s.reps ≠ some JVal.null then
        jsToNumberV (s.reps.getD JVal.null)
      else some 0
    match w, r with
    | some wq, some rq =>
      if 0 < wq ∧ 0 < rq then
        let bw2 := if bw < wq then wq else bw
        let one := estimated1RM wq (some (JVal.num rq))
        setsBestLoop rest (bw2, best1RMUpdate b1 one)
      else setsBestLoop rest (bw, b1)
    | _, _ => setsBestLoop rest (bw, b1)

/-- Best weight and best estimated one-rep max of a single log: the
baseline weight, improved first over the parsed note segments and then
over the sets array when one is present and nonempty. -/
def getBestWeightAnd1RM (log : LogEntry) : ℚ × Option Int :=
  let notes := notesOrNote log
  let segs := (splitOnChar ',' notes.data).map (fun cs => String.mk (trimChars cs))
  let st1 := notesBestLoop segs (getWeightFromLog log) none
  match log.sets with
  | some sets => if sets ≠ [] then setsBestLoop sets st1 else st1
  | none => st1

/-- Cache key of the second-revision distinct-date lookup: the
lower-cased type key, a bar, and the decimal count. -/
def cacheKey (typeKey : String) (count : Nat) : String :=
  strToLower typeKey ++ "|" ++ natStr count

/-- Lookup in the insertion-ordered cache association list. -/
def lookupCache (key : String) : List (String × List String) → Option (List String)
  | [] => none
  | (k, v) :: rest => if k = key then some v else lookupCache key rest

/-- Second-revision cached distinct-date lookup: return the cached list on
a key hit (cached values are arrays, hence always truthy); on a miss
compute the list, evict the first inserted key when the cache is full, and
append the new binding.  The cache only ever holds pairwise distinct keys,
so deleting the first key of the map is dropping the head of the list. -/
def getDistinctSessionDatesCached (cache : List (String × List String))
    (data : List LogEntry) (typeKey : String) (count : Nat) :
    List String × List (String × List String) :=
  match lookupCache (cacheKey typeKey count) cache with
  | some v => (v, cache)
  | none =>
    let result := getDistinctSessionDates data typeKey count
    let cache2 := if 20 ≤ cache.length then cache.drop 1 else cache
    (result, cache2 ++ [(cacheKey typeKey count, result)])

/-- Cache states reachable over a fixed data array by any sequence of
lookups; every call site of the cached lookup passes the static seed
array. -/
inductive CacheReachable (data : List LogEntry) : List (String × List String) → Prop where
  | nil : CacheReachable data []
  | step : ∀ {c : List (String × List String)} (tk : String) (n : Nat),
      CacheReachable data c →
      CacheReachable data (getDistinctSessionDatesCached c data tk n).2

/-- Run a sequence of cached lookups over a fixed data array, collecting
the returned lists. -/
def runDistinctCalls (data : List LogEntry) (cache : List (String × List String)) :
    List (String × Nat) → List (List String)
  | [] => []
  | (tk, n) :: rest =>
    (getDistinctSessionDatesCached cache data tk n).1 ::
      runDistinctCalls data (getDistinctSessionDatesCached cache data tk n).2 rest

/-- Second-revision set normalization to weight, reps and an explicit
modifier that is null, drop or negative.  Non-object entries of a sets
array are not representable in the model. -/
def normalizeSet (s : SetEntry) : SetEntry :=
  let repsRaw :=
    match s.reps with
    | none => ""
    | some JVal.null => ""
    | some v => strTrim (jsValToString v)
  let isDropset := strToLower repsRaw = "dropset" ∨ repsRaw = "Drop"
  let isNegative := strToLower repsRaw = "negative" ∨ repsRaw = "Neg"
  let modifier0 : JVal :=
    match s.modifier with
    | none => JVal.null
    | some v => v
  let modifier : JVal :=
    if modifier0 ≠ JVal.str "drop" ∧ modifier0 ≠ JVal.str "negative" then
      (if isDropset then JVal.str "drop"
       else if isNegative then JVal.str "negative"
       else JVal.null)
    else modifier0
  let weight :=
    match s.weight with
    | none => ""
    | some JVal.null => ""
    | some v => jsValToString v
  let reps :=
    if modifier ≠ JVal.null then ""
    else if repsRaw = "Dropset" ∨ repsRaw = "Negative" then ""
    else repsRaw
  { weight := some (JVal.str weight), reps := some (JVal.str reps),
    modifier := some modifier }

/-- Second-revision exercise normalization: a missing sets array becomes a
single blank set, a present one is normalized elementwise. -/
def normalizeExerciseSets (ex : LogEntry) : LogEntry :=
  let blankSet : SetEntry :=
    { weight := some (JVal.str ""), reps := some (JVal.str ""), modifier := some JVal.null }
  match ex.sets with
  | none => { ex with sets := some [blankSet] }
  | some sets => { ex with sets := some (sets.map normalizeSet) }

/-- Second-revision workout resolver, with the distinct-date lookup going
through the module-level cache, which is threaded explicitly; the
returned state is the cache after the lookups of this evaluation. -/
def currentWorkout2 (seed : List LogEntry) (overrides : String → String → Option OvData)
    (todaysType variation : String) (cache : List (String × List String)) :
    Workout × List (String × List String) :=
  match (overrides todaysType variation).bind (fun o => o.exercises) with
  | some l =>
    if l ≠ [] then
      ({ type := if todaysType = "Legs" then "Heavy Legs and Shoulders" else todaysType,
         date := match (overrides todaysType variation).bind (fun o => o.lastCompletedDate) with
           | some s => some s
           | none => some "Custom",
         exercises := l.map normalizeExerciseSets }, cache)
    else currentWorkout2Lookup seed todaysType variation cache
  | none => currentWorkout2Lookup seed todaysType variation cache
where
  currentWorkout2Lookup (seed : List LogEntry) (todaysType variation : String)
      (cache : List (String × List String)) : Workout × List (String × List String) :=
    if todaysType = "Legs" then
      let heavyKey := "heavy legs and shoulders"
      let kotKey := "kot"
      let heavySessions := seed.filter (fun d => strTruthy d.type && jsIncludes (strToLower (strOrEmpty d.type)) heavyKey)
      let kotSessions := seed.filter (fun d => strTruthy d.type && jsIncludes (strToLower (strOrEmpty d.type)) kotKey)
      if variation = "KOT" then
        let uniqueDates := insertionSort dateFieldLe (dedupFirst (kotSessions.map (fun d => d.date)))
        let targetDate : Option String := (uniqueDates.head?).getD none
        let exercisesForDate := kotSessions.filter (fun d => d.date == targetDate)
        let originalMarty := exercisesForDate.find? (fun ex => isMartyName ex.exercise)
        let otherExercises := exercisesForDate.filter (fun ex => !(isMartyName ex.exercise))
        ({ type := "KOT", date := targetDate,
           exercises := martyExercise originalMarty true :: otherExercises.map normalizeExerciseSets },
         cache)
      else
        let r := getDistinctSessionDatesCached cache seed heavyKey 2
        let distinctDates := r.1
        let targetIdx := if variation = "A" then 0 else 1
        let targetDate : Option String :=
          match distinctDates.get? targetIdx with
          | some s => if s = "" then distinctDates.get? 0 else some s
          | none => distinctDates.get? 0
        ({ type := "Heavy Legs and Shoulders", date := targetDate,
           exercises := (heavySessions.filter (fun d => d.date == targetDate)).map normalizeExerciseSets },
         r.2)
    else
      let searchKey := todaysType
      let r := getDistinctSessionDatesCached cache seed searchKey 3
      let distinctDates := r.1
      let targetDate : Option String :=
        if todaysType = "Push" ∧ variation = "B" then some "11/10/2025"
        else
          match distinctDates.get? (if variation = "A" then 0 else if variation = "B" then 1 else 2) with
          | some s => some s
          | none => distinctDates.get? 0
      let filtered := seed.filter (fun d => typeMatches searchKey d && d.date == targetDate)
      ({ type := match filtered.head? with
           | some e => if strTruthy e.type then strOrEmpty e.type else searchKey
           | none => searchKey,
         date := targetDate,
         exercises := filtered.map normalizeExerciseSets },
       r.2)

/-- Signature of one date in the sense of the specification: the
lower-cased, trimmed, default-sorted, bar-joined exercise names of the
entries of the matching type logged on that date. -/
def sigOfDate (data : List LogEntry) (typeKey : String) (date : String) : String :=
  dateSignature ((data.filter (typeMatches typeKey)).filter (fun d => dateKey d.date = date))

/-- Positive parsed pairs of a trimmed segment list. -/
def posPairsOfSegs (segs : List String) : List (Nat × Nat) :=
  (segs.filterMap (fun seg => findWxR seg.data)).filter (fun p => 0 < p.1 ∧ 0 < p.2)

/-- Positive weight-by-reps pairs recovered from the comma-separated
segments of a notes string. -/
def notesPositivePairs (notes : String) : List (Nat × Nat) :=
  posPairsOfSegs ((splitOnChar ',' notes.data).map (fun cs => String.mk (trimChars cs)))

/-- The Epley estimate of one parsed pair, rounded as the source rounds. -/
def epleyRound (w r : Nat) : Int := jsRound ((w : ℚ) * (1 + (r : ℚ) / 30))

/-- Concrete sample entries used to instantiate the proved theorems. -/
def sampleBench : LogEntry := { type := some "Push", date := some "1/1/24", exercise := some "bench" }

def sampleOhp : LogEntry := { type := some "Push", date := some "1/3/24", exercise := some "ohp" }

def sampleBench2 : LogEntry := { type := some "Push", date := some "1/5/24", exercise := some "bench" }

def sampleSeedRecord : LogEntry :=
  { type := some "Push", date := some "1/1/24", exercise := some "bench",
    sets := some [{ weight := some (JVal.num 200), reps := some (JVal.num 5) }] }

def sampleUserLog : LogEntry :=
  { type := some "Pull", date := some "2/1/24", exercise := some "row",
    notes := some "135x8", completedAt := some "2024-02-01T10:00:00.000Z" }

def sampleNewLog : LogEntry :=
  { type := some "Legs", date := some "2/3/24", exercise := some "squat",
    notes := some "225x5", completedAt := some "2024-02-03T10:00:00.000Z" }

def sampleNotesOnlyLog : LogEntry := { notes := some "100x5, 90x8" }

def sampleNotesAndSetsLog : LogEntry :=
  { notes := some "100x5",
    sets := some [{ weight := some (JVal.num 200), reps := some (JVal.num 5) }] }

/-- C1: for a completed pair occurring at index i of the nine-entry
sequence, onFinish suggests the entry at index (i + 1) mod 9, so the
rotation advances one slot per completed session and wraps at the end. -/
theorem onFinish_rotation_advances_one_slot (i : Nat) (p : String × String)
    (h : WORKOUT_SEQUENCE.get? i = some p) :
    onFinishNext p = WORKOUT_SEQUENCE.get? ((i + 1) % 9) := by
  obtain ⟨hi, -⟩ := List.get?_eq_some.mp h
  have hi9 : i < 9 := by simpa [WORKOUT_SEQUENCE] using hi
  interval_cases i <;>
    (have hp := Option.some.inj h; subst hp; decide)

/-- Witness for C1 at the final slot: completing Legs KOT wraps the
rotation back to Push A. -/
theorem onFinish_rotation_advances_one_slot_witness :
    onFinishNext ("Legs", "KOT") = WORKOUT_SEQUENCE.get? ((8 + 1) % 9) :=
  onFinish_rotation_advances_one_slot 8 ("Legs", "KOT") (by decide)

/-- C5 counterexample: the sequence does not pair every type with every
variation A, B, C; the slot (Legs, C) does not occur. -/
theorem workout_sequence_not_all_variations :
    ¬ (∀ t ∈ ["Push", "Pull", "Legs"], ∀ v ∈ ["A", "B", "C"],
        (t, v) ∈ WORKOUT_SEQUENCE) := by
  decide

/-- C5 amended: nine pairwise distinct slots; Push and Pull each occur
with variations A, B and C, and Legs occurs with A, B and KOT. -/
theorem workout_sequence_shape :
    WORKOUT_SEQUENCE.length = 9 ∧ WORKOUT_SEQUENCE.Nodup ∧
    (∀ v ∈ ["A", "B", "C"], ("Push", v) ∈ WORKOUT_SEQUENCE ∧ ("Pull", v) ∈ WORKOUT_SEQUENCE) ∧
    (∀ v ∈ ["A", "B", "KOT"], ("Legs", v) ∈ WORKOUT_SEQUENCE) := by
  decide

/-- C6: the startup suggestion is the sequence successor of the stored
pair; a missing value, a failed read or parse, or a stored pair outside
the sequence all yield the first slot, Push A. -/
theorem setNext_suggestion_spec :
    (∀ (i : Nat) (p : String × String), WORKOUT_SEQUENCE.get? i = some p →
      setNextSuggested (.obj (some p.1) (some p.2)) = WORKOUT_SEQUENCE.get? ((i + 1) % 9)) ∧
    setNextSuggested .missing = some ("Push", "A") ∧
    setNextSuggested .failed = some ("Push", "A") ∧
    (∀ t v : Option String, (∀ p ∈ WORKOUT_SEQUENCE, ¬(some p.1 = t ∧ some p.2 = v)) →
      setNextSuggested (.obj t v) = some ("Push", "A")) := by
  refine ⟨?_, by decide, by decide, ?_⟩
  · intro i p h
    obtain ⟨hi, -⟩ := List.get?_eq_some.mp h
    have hi9 : i < 9 := by simpa [WORKOUT_SEQUENCE] using hi
    interval_cases i <;>
      (have hp := Option.some.inj h; subst hp; decide)
  · intro t v hnone
    have hfi : List.findIdx? (fun w => some w.1 == t && some w.2 == v) WORKOUT_SEQUENCE = none := by
      rw [List.findIdx?_eq_none_iff]
      intro p hp
      have hne := hnone p hp
      by_contra hb
      rw [Bool.not_eq_false, Bool.and_eq_true, beq_iff_eq, beq_iff_eq] at hb
      exact hne ⟨hb.1, hb.2⟩
    simp only [setNextSuggested, jsFindIndex, hfi]
    decide

/-- Witness for C6: successor of the middle slot, and the fallback on an
unknown stored pair. -/
theorem setNext_suggestion_spec_witness :
    setNextSuggested (.obj (some "Legs") (some "A")) = WORKOUT_SEQUENCE.get? ((2 + 1) % 9) ∧
    setNextSuggested (.obj (some "Rest") (some "Z")) = some ("Push", "A") :=
  ⟨setNext_suggestion_spec.1 2 ("Legs", "A") (by decide),
   setNext_suggestion_spec.2.2.2 (some "Rest") (some "Z") (by decide)⟩

/-- C10: a query that is empty or all whitespace matches every log, and
the history screen filter is therefore the same as with no query at all. -/
theorem empty_search_matches_all (s : String) (hs : strTrim s = "") :
    (∀ log : LogEntry, searchMatchesLog s log = true) ∧
    (∀ history : List LogEntry,
      historyScreenFiltered s history = historyScreenFiltered "" history) := by
  have hmatch : ∀ log : LogEntry, searchMatchesLog s log = true := by
    intro log
    simp [searchMatchesLog, hs, show strToLower "" = "" from by decide]
  refine ⟨hmatch, ?_⟩
  intro history
  unfold historyScreenFiltered
  refine List.filter_congr ?_
  intro h _
  have hempty : searchMatchesLog "" h = true := by
    simp [searchMatchesLog, show strToLower (strTrim "") = "" from by decide]
  rw [hmatch h, hempty]

/-- Witness for C10 on a whitespace query and a concrete log. -/
theorem empty_search_matches_all_witness :
    searchMatchesLog "   " sampleBench = true ∧
    historyScreenFiltered "   " [sampleBench, sampleOhp] =
      historyScreenFiltered "" [sampleBench, sampleOhp] :=
  ⟨(empty_search_matches_all "   " (by decide)).1 sampleBench,
   (empty_search_matches_all "   " (by decide)).2 [sampleBench, sampleOhp]⟩

/-- Normalization never touches the completion stamp. -/
theorem normalizeHistoryLog_completedAt (e : LogEntry) :
    (normalizeHistoryLog e).completedAt = e.completedAt := by
  unfold normalizeHistoryLog
  by_cases h1 : e.notes ≠ none ∧ strTrim (strOrEmpty e.notes) ≠ ""
  · rw [if_pos h1]
  · rw [if_neg h1]
    by_cases h2 : buildNotesFromSeedSets e ≠ "" <;> simp [h2]

/-- C7: finishing a session only appends.  The first revision appends the
session logs to the history array directly; the second revision rebuilds
the same history from the normalized seed and the completed user logs, so
on every history of that shape the result is again the old history with
the new logs appended, all old entries unchanged and in order. -/
theorem onFinish_appends_history :
    (∀ history logs : List LogEntry, onFinishHistory1 history logs = history ++ logs) ∧
    (∀ seed user logs : List LogEntry,
      (∀ e ∈ seed, completedTruthy e = false) →
      (∀ u ∈ user, completedTruthy u = true) →
      onFinishHistory2 seed (seed.map normalizeHistoryLog ++ user) logs =
        (seed.map normalizeHistoryLog ++ user) ++ logs) := by
  refine ⟨fun _ _ => rfl, ?_⟩
  intro seed user logs hseed huser
  unfold onFinishHistory2
  rw [List.filter_append]
  have h1 : (seed.map normalizeHistoryLog).filter completedTruthy = [] := by
    rw [List.filter_eq_nil_iff]
    intro a ha
    obtain ⟨e, he, rfl⟩ := List.mem_map.mp ha
    have hce := hseed e he
    simp only [completedTruthy, normalizeHistoryLog_completedAt] at *
    simp [hce]
  have h2 : user.filter completedTruthy = user := by
    rw [List.filter_eq_self]
    intro u hu
    exact huser u hu
  rw [h1, h2]
  simp

/-- Witness for C7 on a one-entry seed, one completed user log and one
new session log. -/
theorem onFinish_appends_history_witness :
    onFinishHistory1 [sampleUserLog] [sampleNewLog] = [sampleUserLog] ++ [sampleNewLog] ∧
    onFinishHistory2 [sampleSeedRecord]
        ([sampleSeedRecord].map normalizeHistoryLog ++ [sampleUserLog]) [sampleNewLog] =
      ([sampleSeedRecord].map normalizeHistoryLog ++ [sampleUserLog]) ++ [sampleNewLog] :=
  ⟨onFinish_appends_history.1 [sampleUserLog] [sampleNewLog],
   onFinish_appends_history.2 [sampleSeedRecord] [sampleUserLog] [sampleNewLog]
     (by decide) (by decide)⟩

/-- C3: with no override stored, a Push or Pull day with variation A, B
or C takes the first, second or third most recent distinct template date,
falls back to the most recent one when that index is empty, and shows
exactly the seed entries of matching type on the selected date. -/
theorem currentWorkout_variation_selection (seed : List LogEntry)
    (overrides : String → String → Option OvData) (ty v : String) (idx : Nat)
    (hty : ty = "Push" ∨ ty = "Pull")
    (hv : (v = "A" ∧ idx = 0) ∨ (v = "B" ∧ idx = 1) ∨ (v = "C" ∧ idx = 2))
    (hov : (overrides ty v).bind (fun o => o.exercises) = none ∨
           (overrides ty v).bind (fun o => o.exercises) = some []) :
    (∀ d, (getDistinctSessionDates seed ty 3).get? idx = some d →
      (currentWorkout1 seed overrides ty v).date = some d) ∧
    ((getDistinctSessionDates seed ty 3).get? idx = none →
      (currentWorkout1 seed overrides ty v).date = (getDistinctSessionDates seed ty 3).get? 0) ∧
    (currentWorkout1 seed overrides ty v).exercises =
      seed.filter (fun d => typeMatches ty d &&
        d.date == (currentWorkout1 seed overrides ty v).date) := by
  have hred : currentWorkout1 seed overrides ty v = currentWorkout1Lookup seed ty v := by
    unfold currentWorkout1
    rcases hov with h | h
    · rw [h]
    · rw [h]
      simp
  rw [hred]
  rcases hty with rfl | rfl <;>
    rcases hv with ⟨rfl, rfl⟩ | ⟨rfl, rfl⟩ | ⟨rfl, rfl⟩ <;>
  · unfold currentWorkout1Lookup
    simp only [reduceIte]
    refine ⟨?_, ?_, ?_⟩
    · intro d hd
      rw [List.get?_eq_getElem?] at hd
      simp [hd]
    · intro hd
      rw [List.get?_eq_getElem?] at hd
      simp [hd]
    · rfl

/-- Witness for C3: variation B on a three-entry seed picks the second
most recent distinct template date. -/
theorem currentWorkout_variation_selection_witness :
    (currentWorkout1 [sampleBench, sampleOhp, sampleBench2] (fun _ _ => none) "Push" "B").date =
      some "1/3/24" ∧
    (currentWorkout1 [sampleBench, sampleOhp, sampleBench2] (fun _ _ => none) "Push" "B").exercises =
      [sampleBench, sampleOhp, sampleBench2].filter (fun d => typeMatches "Push" d &&
        d.date == (currentWorkout1 [sampleBench, sampleOhp, sampleBench2]
          (fun _ _ => none) "Push" "B").date) :=
  ⟨(currentWorkout_variation_selection [sampleBench, sampleOhp, sampleBench2] (fun _ _ => none)
      "Push" "B" 1 (Or.inl rfl) (Or.inr (Or.inl ⟨rfl, rfl⟩)) (Or.inl rfl)).1 "1/3/24" (by decide),
   (currentWorkout_variation_selection [sampleBench, sampleOhp, sampleBench2] (fun _ _ => none)
      "Push" "B" 1 (Or.inl rfl) (Or.inr (Or.inl ⟨rfl, rfl⟩)) (Or.inl rfl)).2.2⟩

/-- Membership is preserved by sorted insertion. -/
theorem mem_insertSorted {le : α → α → Bool} {x a : α} :
    ∀ {l : List α}, a ∈ insertSorted le x l ↔ a = x ∨ a ∈ l := by
  intro l
  induction l with
  | nil => simp [insertSorted]
  | cons y ys ih =>
    unfold insertSorted
    by_cases hc : le x y <;> simp [hc, ih] <;> tauto

/-- Membership is preserved by the insertion sort. -/
theorem mem_insertionSort {le : α → α → Bool} {a : α} :
    ∀ {l : List α}, a ∈ insertionSort le l ↔ a ∈ l := by
  intro l
  induction l with
  | nil => simp [insertionSort]
  | cons y ys ih => simp [insertionSort, mem_insertSorted, ih]

/-- Sorted insertion keeps the list sorted, for a transitive total
comparator. -/
theorem pairwise_insertSorted {le : α → α → Bool}
    (htrans : ∀ a b c, le a b = true → le b c = true → le a c = true)
    (htotal : ∀ a b, le a b = true ∨ le b a = true) (x : α) :
    ∀ {l : List α}, List.Pairwise (fun a b => le a b = true) l →
      List.Pairwise (fun a b => le a b = true) (insertSorted le x l) := by
  intro l
  induction l with
  | nil => intro _; simp [insertSorted]
  | cons y ys ih =>
    intro h
    rw [List.pairwise_cons] at h
    obtain ⟨hy, hys⟩ := h
    unfold insertSorted
    by_cases hc : le x y
    · simp only [hc, if_true]
      rw [List.pairwise_cons]
      refine ⟨?_, List.pairwise_cons.mpr ⟨hy, hys⟩⟩
      intro b hb
      rcases List.mem_cons.mp hb with rfl | hb2
      · exact hc
      · exact htrans x y b hc (hy b hb2)
    · rw [Bool.not_eq_true] at hc
      simp only [hc, Bool.false_eq_true, if_false]
      rw [List.pairwise_cons]
      refine ⟨?_, ih hys⟩
      intro b hb
      rcases mem_insertSorted.mp hb with hbx | hb2
      · rw [hbx]
        rcases htotal x y with h1 | h1
        · rw [h1] at hc
          exact absurd hc (by simp)
        · exact h1
      · exact hy b hb2

/-- The insertion sort sorts, for a transitive total comparator. -/
theorem pairwise_insertionSort {le : α → α → Bool}
    (htrans : ∀ a b c, le a b = true → le b c = true → le a c = true)
    (htotal : ∀ a b, le a b = true ∨ le b a = true) :
    ∀ (l : List α), List.Pairwise (fun a b => le a b = true) (insertionSort le l) := by
  intro l
  induction l with
  | nil => simp [insertionSort]
  | cons y ys ih => exact pairwise_insertSorted htrans htotal y ih

/-- Inserting an entry into the date groups keeps every group equal to
the filter of the processed prefix at its key, extends the key list by at
most the new key, and keeps the key list duplicate-free. -/
theorem insertGroup_spec (k : String) (d : LogEntry) (hk : k = dateKey d.date) :
    ∀ (m : List (String × List LogEntry)) (l0 : List LogEntry),
      (∀ p ∈ m, p.2 = l0.filter (fun e => dateKey e.date = p.1)) →
      (k ∉ m.map Prod.fst → l0.filter (fun e => dateKey e.date = k) = []) →
      (m.map Prod.fst).Nodup →
      (∀ p ∈ insertGroup m k d, p.2 = (l0 ++ [d]).filter (fun e => dateKey e.date = p.1)) ∧
      (k ∈ m.map Prod.fst → (insertGroup m k d).map Prod.fst = m.map Prod.fst) ∧
      (k ∉ m.map Prod.fst → (insertGroup m k d).map Prod.fst = m.map Prod.fst ++ [k]) := by
  intro m
  induction m with
  | nil =>
    intro l0 h1 h2 hnd
    refine ⟨?_, by simp, by simp [insertGroup]⟩
    intro p hp
    rcases List.mem_singleton.mp hp with rfl
    rw [List.filter_append, h2 (by simp)]
    simp [hk.symm]
  | cons hd rest ih =>
    intro l0 h1 h2 hnd
    obtain ⟨k2, v⟩ := hd
    rw [List.map_cons, List.nodup_cons] at hnd
    obtain ⟨hk2nd, hndrest⟩ := hnd
    by_cases hkk : k2 = k
    · subst hkk
      have hins : insertGroup ((k2, v) :: rest) k2 d = (k2, v ++ [d]) :: rest := by
        simp [insertGroup]
      refine ⟨?_, ?_, ?_⟩
      · intro p hp
        rw [hins] at hp
        rcases List.mem_cons.mp hp with rfl | hp2
        · have hv := h1 (k2, v) (by simp)
          simp only at hv
          rw [List.filter_append, ← hv]
          simp [hk.symm]
        · have hp1 : p.1 ≠ k2 := by
            intro hcon
            apply hk2nd
            have hmem : p.1 ∈ List.map Prod.fst rest := List.mem_map_of_mem Prod.fst hp2
            rw [hcon] at hmem
            exact hmem
          have hv := h1 p (List.mem_cons_of_mem _ hp2)
          rw [List.filter_append, ← hv]
          have hnil : [d].filter (fun e => dateKey e.date = p.1) = [] := by
            simp [← hk, hp1.symm]
          rw [hnil, List.append_nil]
      · intro _
        rw [hins]
        simp
      · intro habs
        exact absurd (by simp) habs
    · have hrec := ih l0 (fun p hp => h1 p (List.mem_cons_of_mem _ hp))
        (fun hknotin => h2 (by
          simp only [List.map_cons, List.mem_cons]
          rintro (hkl | hkr)
          · exact hkk hkl.symm
          · exact hknotin hkr))
        hndrest
      have hins : insertGroup ((k2, v) :: rest) k d = (k2, v) :: insertGroup rest k d := by
        simp [insertGroup, hkk]
      refine ⟨?_, ?_, ?_⟩
      · intro p hp
        rw [hins] at hp
        rcases List.mem_cons.mp hp with rfl | hp2
        · have hv := h1 (k2, v) (by simp)
          simp only at hv
          rw [List.filter_append, ← hv]
          have hnil : [d].filter (fun e => dateKey e.date = k2) = [] := by
            simp [← hk, Ne.symm hkk]
          rw [hnil, List.append_nil]
        · exact hrec.1 p hp2
      · intro hkin
        rw [hins]
        simp only [List.map_cons, List.mem_cons] at hkin ⊢
        rcases hkin with hkl | hkr
        · exact absurd hkl.symm hkk
        · rw [hrec.2.1 hkr]
      · intro hknotin
        rw [hins]
        simp only [List.map_cons, List.mem_cons, not_or] at hknotin
        rw [List.map_cons, hrec.2.2 hknotin.2]
        simp

/-- Folding the whole array through insertGroup keeps the group
invariants: every group is the filter of the processed entries at its
key, every processed entry has its key present, and keys stay
duplicate-free. -/
theorem foldl_insertGroup_inv :
    ∀ (l : List LogEntry) (m : List (String × List LogEntry)) (l0 : List LogEntry),
      (∀ p ∈ m, p.2 = l0.filter (fun e => dateKey e.date = p.1)) →
      (∀ e ∈ l0, dateKey e.date ∈ m.map Prod.fst) →
      (m.map Prod.fst).Nodup →
      (∀ p ∈ l.foldl (fun acc d => insertGroup acc (dateKey d.date) d) m,
        p.2 = (l0 ++ l).filter (fun e => dateKey e.date = p.1)) ∧
      ((l.foldl (fun acc d => insertGroup acc (dateKey d.date) d) m).map Prod.fst).Nodup := by
  intro l
  induction l with
  | nil =>
    intro m l0 h1 _ hnd
    refine ⟨fun p hp => ?_, hnd⟩
    rw [List.append_nil]
    exact h1 p hp
  | cons d rest ih =>
    intro m l0 h1 h2 hnd
    have hspec := insertGroup_spec (dateKey d.date) d rfl m l0 h1
      (fun hknotin => by
        rw [List.filter_eq_nil_iff]
        intro e he hkey
        rw [decide_eq_true_eq] at hkey
        exact hknotin (hkey ▸ h2 e he))
      hnd
    have hsub : m.map Prod.fst ⊆ (insertGroup m (dateKey d.date) d).map Prod.fst := by
      by_cases hkin : dateKey d.date ∈ m.map Prod.fst
      · rw [hspec.2.1 hkin]
        exact fun x hx => hx
      · rw [hspec.2.2 hkin]
        exact List.subset_append_left _ _
    have hkmem : dateKey d.date ∈ (insertGroup m (dateKey d.date) d).map Prod.fst := by
      by_cases hkin : dateKey d.date ∈ m.map Prod.fst
      · rw [hspec.2.1 hkin]
        exact hkin
      · rw [hspec.2.2 hkin]
        simp
    have hnd2 : ((insertGroup m (dateKey d.date) d).map Prod.fst).Nodup := by
      by_cases hkin : dateKey d.date ∈ m.map Prod.fst
      · rw [hspec.2.1 hkin]
        exact hnd
      · rw [hspec.2.2 hkin]
        refine List.Nodup.append hnd (by simp) ?_
        intro x hx1 hx2
        rcases List.mem_singleton.mp hx2 with rfl
        exact hkin hx1
    have h2new : ∀ e ∈ l0 ++ [d],
        dateKey e.date ∈ (insertGroup m (dateKey d.date) d).map Prod.fst := by
      intro e he
      rcases List.mem_append.mp he with hel | her
      · exact hsub (h2 e hel)
      · rcases List.mem_singleton.mp her with rfl
        exact hkmem
    have hrec := ih (insertGroup m (dateKey d.date) d) (l0 ++ [d]) hspec.1 h2new hnd2
    rw [List.foldl_cons]
    constructor
    · intro p hp
      have hval := hrec.1 p hp
      rwa [List.append_assoc, List.singleton_append] at hval
    · exact hrec.2

/-- Every date group of the scan equals the filter of the whole filtered
array at its key. -/
theorem groupByDate_spec (l : List LogEntry) :
    ∀ p ∈ groupByDate l, p.2 = l.filter (fun e => dateKey e.date = p.1) := by
  intro p hp
  have := (foldl_insertGroup_inv l [] [] (by simp) (by simp) (by simp)).1 p hp
  simpa using this

/-- The collection loop only ever appends dates drawn, in order, from the
remaining group list. -/
theorem distinctLoop_append_sublist (count : Nat) :
    ∀ (pairs : List (String × List LogEntry)) (seen acc : List String),
      ∃ t, distinctLoop count pairs seen acc = acc ++ t ∧
        t.Sublist (pairs.map Prod.fst) := by
  intro pairs
  induction pairs with
  | nil =>
    intro seen acc
    exact ⟨[], by simp [distinctLoop], List.nil_sublist _⟩
  | cons pr rest ih =>
    intro seen acc
    obtain ⟨date, entries⟩ := pr
    by_cases hc : dateSignature entries ∈ seen
    · obtain ⟨t, ht, hs⟩ := ih seen acc
      refine ⟨t, ?_, hs.cons date⟩
      simp only [distinctLoop, if_pos hc]
      exact ht
    · by_cases hlen : count ≤ (acc ++ [date]).length
      · refine ⟨[date], ?_, (List.nil_sublist _).cons₂ date⟩
        simp only [distinctLoop, if_neg hc, if_pos hlen]
      · obtain ⟨t, ht, hs⟩ := ih (dateSignature entries :: seen) (acc ++ [date])
        refine ⟨date :: t, ?_, hs.cons₂ date⟩
        simp only [distinctLoop, if_neg hc, if_neg hlen]
        rw [ht, List.append_assoc, List.singleton_append]

/-- The collection loop never exceeds the requested count once the
accumulator is still below it. -/
theorem distinctLoop_length_le (count : Nat) :
    ∀ (pairs : List (String × List LogEntry)) (seen acc : List String),
      acc.length < count → (distinctLoop count pairs seen acc).length ≤ count := by
  intro pairs
  induction pairs with
  | nil =>
    intro seen acc h
    simpa [distinctLoop] using Nat.le_of_lt h
  | cons pr rest ih =>
    intro seen acc h
    obtain ⟨date, entries⟩ := pr
    by_cases hc : dateSignature entries ∈ seen
    · simp only [distinctLoop, if_pos hc]
      exact ih seen acc h
    · by_cases hlen : count ≤ (acc ++ [date]).length
      · simp only [distinctLoop, if_neg hc, if_pos hlen]
        simp only [List.length_append, List.length_singleton]
        omega
      · simp only [distinctLoop, if_neg hc, if_neg hlen]
        refine ih _ _ ?_
        simp only [not_le, List.length_append, List.length_singleton] at hlen
        simpa using hlen

/-- The collection loop produces dates with pairwise distinct signatures,
given that every group signature agrees with the per-date signature and
the accumulator signatures are recorded in the seen set. -/
theorem distinctLoop_pairwise (data : List LogEntry) (tk : String) (count : Nat) :
    ∀ (pairs : List (String × List LogEntry)) (seen acc : List String),
      (∀ p ∈ pairs, dateSignature p.2 = sigOfDate data tk p.1) →
      List.Pairwise (fun a b => sigOfDate data tk a ≠ sigOfDate data tk b) acc →
      (∀ a ∈ acc, sigOfDate data tk a ∈ seen) →
      List.Pairwise (fun a b => sigOfDate data tk a ≠ sigOfDate data tk b)
        (distinctLoop count pairs seen acc) := by
  intro pairs
  induction pairs with
  | nil =>
    intro seen acc _ hpw _
    simpa [distinctLoop] using hpw
  | cons pr rest ih =>
    intro seen acc hsig hpw hseen
    obtain ⟨date, entries⟩ := pr
    have hsd : dateSignature entries = sigOfDate data tk date := hsig (date, entries) (by simp)
    by_cases hc : dateSignature entries ∈ seen
    · simp only [distinctLoop, if_pos hc]
      exact ih seen acc (fun p hp => hsig p (List.mem_cons_of_mem _ hp)) hpw hseen
    · have hpw2 : List.Pairwise (fun a b => sigOfDate data tk a ≠ sigOfDate data tk b)
          (acc ++ [date]) := by
        rw [List.pairwise_append]
        refine ⟨hpw, List.pairwise_singleton _ _, ?_⟩
        intro a ha b hb
        rcases List.mem_singleton.mp hb with rfl
        intro hcon
        apply hc
        rw [hsd, ← hcon]
        exact hseen a ha
      by_cases hlen : count ≤ (acc ++ [date]).length
      · simp only [distinctLoop, if_neg hc, if_pos hlen]
        exact hpw2
      · simp only [distinctLoop, if_neg hc, if_neg hlen]
        refine ih _ _ (fun p hp => hsig p (List.mem_cons_of_mem _ hp)) hpw2 ?_
        intro a ha
        rcases List.mem_append.mp ha with h1 | h2
        · exact List.mem_cons_of_mem _ (hseen a h1)
        · rcases List.mem_singleton.mp h2 with rfl
          rw [← hsd]
          exact List.mem_cons_self _ _

/-- C2 amended: for every count of at least one, the distinct-date scan
returns at most count dates, sorted newest first by parsed timestamp,
with pairwise distinct per-date exercise signatures.  For count zero the
loop pushes one date before testing the bound, which is the
counterexample recorded separately. -/
theorem getDistinctSessionDates_spec (data : List LogEntry) (tk : String) (count : Nat)
    (hcount : 1 ≤ count) :
    (getDistinctSessionDates data tk count).length ≤ count ∧
    List.Pairwise (fun a b => parseWorkoutDate b ≤ parseWorkoutDate a)
      (getDistinctSessionDates data tk count) ∧
    List.Pairwise (fun a b => sigOfDate data tk a ≠ sigOfDate data tk b)
      (getDistinctSessionDates data tk count) := by
  have htrans : ∀ a b c : String × List LogEntry,
      dateGroupLe a b = true → dateGroupLe b c = true → dateGroupLe a c = true := by
    intro a b c hab hbc
    rw [dateGroupLe, decide_eq_true_eq] at *
    exact le_trans hbc hab
  have htotal : ∀ a b : String × List LogEntry,
      dateGroupLe a b = true ∨ dateGroupLe b a = true := by
    intro a b
    rw [dateGroupLe, dateGroupLe, decide_eq_true_eq, decide_eq_true_eq]
    exact le_total _ _
  have hEq : getDistinctSessionDates data tk count =
      distinctLoop count
        (insertionSort dateGroupLe (groupByDate (data.filter (typeMatches tk)))) [] [] := rfl
  rw [hEq]
  refine ⟨?_, ?_, ?_⟩
  · exact distinctLoop_length_le count _ [] [] (by simpa using hcount)
  · obtain ⟨t, ht, hs⟩ :=
      distinctLoop_append_sublist count
        (insertionSort dateGroupLe (groupByDate (data.filter (typeMatches tk)))) [] []
    rw [ht, List.nil_append]
    have hsorted := pairwise_insertionSort htrans htotal (groupByDate (data.filter (typeMatches tk)))
    have hmap : List.Pairwise (fun a b => parseWorkoutDate b ≤ parseWorkoutDate a)
        ((insertionSort dateGroupLe (groupByDate (data.filter (typeMatches tk)))).map Prod.fst) := by
      rw [List.pairwise_map]
      exact hsorted.imp (fun h => by rwa [dateGroupLe, decide_eq_true_eq] at h)
    exact List.Pairwise.sublist hs hmap
  · apply distinctLoop_pairwise data tk count _ [] []
    · intro p hp
      have hpb := mem_insertionSort.mp hp
      have hval := groupByDate_spec (data.filter (typeMatches tk)) p hpb
      rw [sigOfDate, hval]
    · exact List.Pairwise.nil
    · intro a ha
      cases ha

/-- C2 counterexample: with count zero and a single matching entry the
scan returns one date, not at most zero. -/
theorem getDistinctSessionDates_count_zero_counterexample :
    ¬ ((getDistinctSessionDates [sampleBench] "push" 0).length ≤ 0) := by
  decide

/-- Witness for C2 on a three-entry history with two distinct
signatures. -/
theorem getDistinctSessionDates_spec_witness :
    (getDistinctSessionDates [sampleBench, sampleOhp, sampleBench2] "Push" 3).length ≤ 3 ∧
    List.Pairwise (fun a b => parseWorkoutDate b ≤ parseWorkoutDate a)
      (getDistinctSessionDates [sampleBench, sampleOhp, sampleBench2] "Push" 3) ∧
    List.Pairwise (fun a b => sigOfDate [sampleBench, sampleOhp, sampleBench2] "Push" a ≠
        sigOfDate [sampleBench, sampleOhp, sampleBench2] "Push" b)
      (getDistinctSessionDates [sampleBench, sampleOhp, sampleBench2] "Push" 3) :=
  getDistinctSessionDates_spec [sampleBench, sampleOhp, sampleBench2] "Push" 3 (by decide)

/-- The strict-compare update of the loops is the binary maximum. -/
theorem if_lt_eq_max {α : Type} [LinearOrder α] (a b : α) :
    (if a < b then b else a) = max a b := by
  rcases lt_or_le a b with h | h
  · rw [if_pos h, max_eq_right h.le]
  · rw [if_neg (not_lt.mpr h), max_eq_left h]

/-- The Epley estimate of a positive integer pair is defined and rounds
the claimed formula. -/
theorem estimated1RM_pos_nat (w r : Nat) (hw : 0 < w) (hr : 0 < r) :
    estimated1RM (w : ℚ) (some (JVal.num (r : ℚ))) = some (epleyRound w r) := by
  have hwq : (0 : ℚ) < w := by exact_mod_cast hw
  have hrq : (0 : ℚ) < r := by exact_mod_cast hr
  unfold estimated1RM
  simp only [jsToNumberV]
  rw [if_neg (not_le.mpr hwq), if_neg (by simp), if_neg (by simp [not_le.mpr hrq])]
  rfl

/-- The best-1RM update on two present values is the maximum. -/
theorem best1RMUpdate_some (b o : Int) :
    best1RMUpdate (some b) (some o) = some (max b o) := by
  by_cases h : b < o
  · simp [best1RMUpdate, h, max_eq_right h.le]
  · simp [best1RMUpdate, h, max_eq_left (not_lt.mp h)]

/-- A segment with no parsed pair contributes no positive pair. -/
theorem posPairsOfSegs_cons_none {seg : String} {rest : List String}
    (hf : findWxR seg.data = none) :
    posPairsOfSegs (seg :: rest) = posPairsOfSegs rest := by
  simp [posPairsOfSegs, hf]

/-- A segment parsing to a positive pair contributes it in front. -/
theorem posPairsOfSegs_cons_pos {seg : String} {rest : List String} {w r : Nat}
    (hf : findWxR seg.data = some (w, r)) (hpos : 0 < w ∧ 0 < r) :
    posPairsOfSegs (seg :: rest) = (w, r) :: posPairsOfSegs rest := by
  simp [posPairsOfSegs, hf, hpos]

/-- A segment parsing to a non-positive pair contributes nothing. -/
theorem posPairsOfSegs_cons_nonpos {seg : String} {rest : List String} {w r : Nat}
    (hf : findWxR seg.data = some (w, r)) (hpos : ¬(0 < w ∧ 0 < r)) :
    posPairsOfSegs (seg :: rest) = posPairsOfSegs rest := by
  simp [posPairsOfSegs, hf, hpos]

/-- Characterization of the note-segment loop: the final weight is the
maximum fold of the positive parsed weights over the incoming weight, and
the final 1RM is the update fold of the Epley estimates of the positive
parsed pairs. -/
theorem notesBestLoop_spec :
    ∀ (segs : List String) (bw : ℚ) (b1 : Option Int),
      notesBestLoop segs bw b1 =
        ((posPairsOfSegs segs).foldl (fun m p => max m (p.1 : ℚ)) bw,
         (posPairsOfSegs segs).foldl
           (fun c p => best1RMUpdate c (some (epleyRound p.1 p.2))) b1) := by
  intro segs
  induction segs with
  | nil => intro bw b1; rfl
  | cons seg rest ih =>
    intro bw b1
    unfold notesBestLoop
    cases hf : findWxR seg.data with
    | none =>
      rw [posPairsOfSegs_cons_none hf]
      exact ih bw b1
    | some p =>
      obtain ⟨w, r⟩ := p
      dsimp only
      by_cases hpos : 0 < w ∧ 0 < r
      · rw [posPairsOfSegs_cons_pos hf hpos, if_pos hpos, List.foldl_cons, List.foldl_cons,
          ih, estimated1RM_pos_nat w r hpos.1 hpos.2, if_lt_eq_max]
      · rw [posPairsOfSegs_cons_nonpos hf hpos, if_neg hpos]
        exact ih bw b1

/-- The maximum fold over rationals stays in the list or at the base and
bounds both. -/
theorem foldl_max_spec (L : List ℚ) :
    ∀ b : ℚ, (L.foldl max b = b ∨ L.foldl max b ∈ L) ∧
      b ≤ L.foldl max b ∧ ∀ x ∈ L, x ≤ L.foldl max b := by
  induction L with
  | nil => intro b; exact ⟨Or.inl rfl, le_refl b, by simp⟩
  | cons y ys ih =>
    intro b
    obtain ⟨hmem, hle, hbound⟩ := ih (max b y)
    rw [List.foldl_cons]
    refine ⟨?_, le_trans (le_max_left b y) hle, ?_⟩
    · rcases hmem with h | h
      · rw [h]
        rcases max_choice b y with hb | hy
        · exact Or.inl hb
        · rw [hy]
          exact Or.inr (List.mem_cons_self y ys)
      · exact Or.inr (List.mem_cons_of_mem y h)
    · intro x hx
      rcases List.mem_cons.mp hx with hxy | hx2
      · rw [hxy]
        exact le_trans (le_max_right b y) hle
      · exact hbound x hx2

/-- The best-1RM fold from a present value is the running integer
maximum: present, bounding the base and every folded estimate, and equal
to one of them. -/
theorem best1RM_foldl_some (L : List (Nat × Nat)) :
    ∀ b : Int,
      ∃ m, L.foldl (fun c p => best1RMUpdate c (some (epleyRound p.1 p.2))) (some b) = some m ∧
        (m = b ∨ m ∈ L.map (fun p => epleyRound p.1 p.2)) ∧ b ≤ m ∧
        ∀ x ∈ L.map (fun p => epleyRound p.1 p.2), x ≤ m := by
  induction L with
  | nil =>
    intro b
    exact ⟨b, rfl, Or.inl rfl, le_refl b, by simp⟩
  | cons p rest ih =>
    intro b
    obtain ⟨m, hfold, hmem, hle, hbound⟩ := ih (max b (epleyRound p.1 p.2))
    refine ⟨m, ?_, ?_, le_trans (le_max_left _ _) hle, ?_⟩
    · rw [List.foldl_cons, best1RMUpdate_some]
      exact hfold
    · rw [List.map_cons]
      rcases hmem with h | h
      · rcases max_choice b (epleyRound p.1 p.2) with hb | he
        · exact Or.inl (h.trans hb)
        · rw [h.trans he]
          exact Or.inr (List.mem_cons_self _ _)
      · exact Or.inr (List.mem_cons_of_mem _ h)
    · intro x hx
      rw [List.map_cons] at hx
      rcases List.mem_cons.mp hx with hxy | hx2
      · rw [hxy]
        exact le_trans (le_max_right b _) hle
      · exact hbound x hx2

/-- The best-1RM fold from the empty state over a nonempty pair list is
the maximum of the Epley estimates. -/
theorem best1RM_foldl_none (L : List (Nat × Nat)) (hL : L ≠ []) :
    ∃ m, L.foldl (fun c p => best1RMUpdate c (some (epleyRound p.1 p.2))) none = some m ∧
      m ∈ L.map (fun p => epleyRound p.1 p.2) ∧
      ∀ x ∈ L.map (fun p => epleyRound p.1 p.2), x ≤ m := by
  cases L with
  | nil => exact absurd rfl hL
  | cons p rest =>
    obtain ⟨m, hfold, hmem, hle, hbound⟩ := best1RM_foldl_some rest (epleyRound p.1 p.2)
    refine ⟨m, ?_, ?_, ?_⟩
    · rw [List.foldl_cons]
      exact hfold
    · rw [List.map_cons]
      rcases hmem with h | h
      · rw [h]
        exact List.mem_cons_self _ _
      · exact List.mem_cons_of_mem _ h
    · intro x hx
      rw [List.map_cons] at hx
      rcases List.mem_cons.mp hx with hxy | hx2
      · rw [hxy]
        exact hle
      · exact hbound x hx2

/-- C8 amended: on a log without a sets array whose notes contain
comma-separated WxR segments with positive entries, the returned weight
is the maximum of the parsed weights and the baseline weight of the log,
and the returned estimate is the maximum Epley estimate of the parsed
pairs; and the Epley helper returns null for nonpositive weight and for
missing, null, non-numeric or nonpositive reps.  On a log that also has
sets the loops continue over them, which is the counterexample recorded
separately. -/
theorem getBestWeightAnd1RM_spec :
    (∀ (log : LogEntry) (ps : List (Nat × Nat)),
      (log.sets = none ∨ log.sets = some []) →
      notesPositivePairs (notesOrNote log) = ps →
      ps ≠ [] →
      ((getBestWeightAnd1RM log).1 ∈
          getWeightFromLog log :: ps.map (fun p => (p.1 : ℚ)) ∧
        ∀ x ∈ getWeightFromLog log :: ps.map (fun p => (p.1 : ℚ)),
          x ≤ (getBestWeightAnd1RM log).1) ∧
      (∃ m, (getBestWeightAnd1RM log).2 = some m ∧
        m ∈ ps.map (fun p => epleyRound p.1 p.2) ∧
        ∀ x ∈ ps.map (fun p => epleyRound p.1 p.2), x ≤ m)) ∧
    (∀ (w : ℚ) (r : Option JVal),
      (w ≤ 0 ∨ r = none ∨ r = some JVal.null ∨
        (∃ v, r = some v ∧ jsToNumberV v = none) ∨
        (∃ v q, r = some v ∧ jsToNumberV v = some q ∧ q ≤ 0)) →
      estimated1RM w r = none) := by
  constructor
  · intro log ps hsets hp hne
    have hred : getBestWeightAnd1RM log =
        notesBestLoop
          ((splitOnChar ',' (notesOrNote log).data).map (fun cs => String.mk (trimChars cs)))
          (getWeightFromLog log) none := by
      rcases hsets with h | h
      · unfold getBestWeightAnd1RM
        rw [h]
      · unfold getBestWeightAnd1RM
        rw [h]
        simp
    have hps : posPairsOfSegs
        ((splitOnChar ',' (notesOrNote log).data).map (fun cs => String.mk (trimChars cs))) = ps := hp
    rw [hred, notesBestLoop_spec, hps]
    constructor
    · have hconv : ps.foldl (fun m p => max m (p.1 : ℚ)) (getWeightFromLog log) =
          (ps.map (fun p => (p.1 : ℚ))).foldl max (getWeightFromLog log) := by
        rw [List.foldl_map]
      obtain ⟨hmem, hle, hbound⟩ :=
        foldl_max_spec (ps.map (fun p => (p.1 : ℚ))) (getWeightFromLog log)
      constructor
      · simp only [hconv]
        rcases hmem with h | h
        · rw [h]
          exact List.mem_cons_self _ _
        · exact List.mem_cons_of_mem _ h
      · intro x hx
        simp only [hconv]
        rcases List.mem_cons.mp hx with hxb | hx2
        · rw [hxb]
          exact hle
        · exact hbound x hx2
    · exact best1RM_foldl_none ps hne
  · intro w r hyp
    rcases hyp with hw | hr | hr | ⟨v, hrv, hv⟩ | ⟨v, q, hrv, hv, hq⟩
    · unfold estimated1RM
      rw [if_pos hw]
    · subst hr
      simp [estimated1RM]
    · subst hr
      simp [estimated1RM]
    · subst hrv
      simp [estimated1RM, hv]
    · subst hrv
      simp [estimated1RM, hv, hq]

/-- C8 counterexample: a log carrying both notes and a heavier sets array
returns the set weight and the set Epley estimate, not the note maximum
of the claim. -/
theorem getBestWeightAnd1RM_counterexample :
    sampleNotesAndSetsLog.sets ≠ none ∧
    notesPositivePairs (notesOrNote sampleNotesAndSetsLog) = [(100, 5)] ∧
    (getBestWeightAnd1RM sampleNotesAndSetsLog).1 ∉
      getWeightFromLog sampleNotesAndSetsLog ::
        [((100 : Nat), (5 : Nat))].map (fun p => (p.1 : ℚ)) ∧
    (getBestWeightAnd1RM sampleNotesAndSetsLog).2 ≠ some (epleyRound 100 5) := by
  refine ⟨by decide, by decide, ?_, by decide⟩
  intro hmem
  have h1 : (getBestWeightAnd1RM sampleNotesAndSetsLog).1 = 200 := by decide
  have h2 : getWeightFromLog sampleNotesAndSetsLog = 100 := by decide
  rw [h1, h2] at hmem
  simp at hmem

/-- Witness for C8 on a notes-only log with two positive segments, and
the null cases of the Epley helper at concrete values. -/
theorem getBestWeightAnd1RM_spec_witness :
    (((getBestWeightAnd1RM sampleNotesOnlyLog).1 ∈
        getWeightFromLog sampleNotesOnlyLog ::
          [((100 : Nat), (5 : Nat)), (90, 8)].map (fun p => (p.1 : ℚ)) ∧
      ∀ x ∈ getWeightFromLog sampleNotesOnlyLog ::
          [((100 : Nat), (5 : Nat)), (90, 8)].map (fun p => (p.1 : ℚ)),
        x ≤ (getBestWeightAnd1RM sampleNotesOnlyLog).1) ∧
      (∃ m, (getBestWeightAnd1RM sampleNotesOnlyLog).2 = some m ∧
        m ∈ [((100 : Nat), (5 : Nat)), (90, 8)].map (fun p => epleyRound p.1 p.2) ∧
        ∀ x ∈ [((100 : Nat), (5 : Nat)), (90, 8)].map (fun p => epleyRound p.1 p.2), x ≤ m)) ∧
    estimated1RM 100 (some JVal.null) = none :=
  ⟨getBestWeightAnd1RM_spec.1 sampleNotesOnlyLog [(100, 5), (90, 8)]
      (Or.inl rfl) (by decide) (by decide),
   getBestWeightAnd1RM_spec.2 100 (some JVal.null) (Or.inr (Or.inr (Or.inl rfl)))⟩

/-- Decimal digit lists never contain the bar separator. -/
theorem natDigits_no_bar (n : Nat) : ∀ c ∈ natDigits n, c ≠ '|' := by
  induction n using Nat.strong_induction_on with
  | _ n ih =>
    unfold natDigits
    by_cases h : n < 10
    · rw [dif_pos h]
      intro c hc
      rcases List.mem_singleton.mp hc with rfl
      interval_cases n <;> decide
    · rw [dif_neg h]
      intro c hc
      rcases List.mem_append.mp hc with h1 | h2
      · exact ih (n / 10) (Nat.div_lt_self (by omega) (by omega)) c h1
      · rcases List.mem_singleton.mp h2 with rfl
        have hd : n % 10 < 10 := Nat.mod_lt _ (by omega)
        set d := n % 10 with hdd
        interval_cases d <;> decide

/-- Reading the decimal digits back gives the number. -/
theorem digitsToNat_natDigits (n : Nat) : digitsToNat (natDigits n) = n := by
  induction n using Nat.strong_induction_on with
  | _ n ih =>
    unfold natDigits
    by_cases h : n < 10
    · rw [dif_pos h]
      interval_cases n <;> decide
    · rw [dif_neg h]
      unfold digitsToNat
      rw [List.foldl_append]
      have hih := ih (n / 10) (Nat.div_lt_self (by omega) (by omega))
      unfold digitsToNat at hih
      rw [hih]
      have hd : n % 10 < 10 := Nat.mod_lt _ (by omega)
      have hchar : (Char.ofNat (48 + n % 10)).toNat - 48 = n % 10 := by
        set d := n % 10 with hdd
        interval_cases d <;> decide
      simp only [List.foldl_cons, List.foldl_nil, hchar]
      omega

/-- A bar-separated concatenation with bar-free tails decomposes
uniquely. -/
theorem bar_split_unique :
    ∀ (a b x y : List Char), (∀ c ∈ x, c ≠ '|') → (∀ c ∈ y, c ≠ '|') →
      a ++ '|' :: x = b ++ '|' :: y → a = b ∧ x = y := by
  intro a
  induction a with
  | nil =>
    intro b x y hx hy h
    cases b with
    | nil =>
      simp only [List.nil_append] at h
      exact ⟨rfl, (List.cons.injEq _ _ _ _).mp h |>.2⟩
    | cons c b2 =>
      simp only [List.nil_append, List.cons_append] at h
      obtain ⟨hc, ht⟩ := (List.cons.injEq _ _ _ _).mp h
      exfalso
      apply hx '|'
      · rw [ht]
        exact List.mem_append_right _ (List.mem_cons_self _ _)
      · rfl
  | cons c a2 ih =>
    intro b x y hx hy h
    cases b with
    | nil =>
      simp only [List.nil_append, List.cons_append] at h
      obtain ⟨hc, ht⟩ := (List.cons.injEq _ _ _ _).mp h
      exfalso
      apply hy '|'
      · rw [← ht]
        exact List.mem_append_right _ (List.mem_cons_self _ _)
      · rfl
    | cons c2 b2 =>
      simp only [List.cons_append] at h
      obtain ⟨hc, ht⟩ := (List.cons.injEq _ _ _ _).mp h
      obtain ⟨ha, hxy⟩ := ih b2 x y hx hy ht
      exact ⟨by rw [hc, ha], hxy⟩

/-- Two cache keys agree exactly when the lower-cased type keys and the
counts agree. -/
theorem cacheKey_inj (tk1 tk2 : String) (n1 n2 : Nat)
    (h : cacheKey tk1 n1 = cacheKey tk2 n2) :
    strToLower tk1 = strToLower tk2 ∧ n1 = n2 := by
  have hdata : (strToLower tk1).data ++ '|' :: natDigits n1 =
      (strToLower tk2).data ++ '|' :: natDigits n2 := by
    have h2 := congrArg String.data h
    unfold cacheKey at h2
    simpa [natStr, String.data_append] using h2
  obtain ⟨hl, hd⟩ := bar_split_unique _ _ _ _ (natDigits_no_bar n1) (natDigits_no_bar n2) hdata
  constructor
  · exact congrArg String.mk hl
  · have hn := congrArg digitsToNat hd
    rwa [digitsToNat_natDigits, digitsToNat_natDigits] at hn

/-- The distinct-date scan depends on the type key only through its lower
case form. -/
theorem getDistinctSessionDates_congr_lower (data : List LogEntry) (tk1 tk2 : String)
    (h : strToLower tk1 = strToLower tk2) (n : Nat) :
    getDistinctSessionDates data tk1 n = getDistinctSessionDates data tk2 n := by
  have hEq1 : getDistinctSessionDates data tk1 n =
      distinctLoop n
        (insertionSort dateGroupLe (groupByDate (data.filter (typeMatches tk1)))) [] [] := rfl
  have hEq2 : getDistinctSessionDates data tk2 n =
      distinctLoop n
        (insertionSort dateGroupLe (groupByDate (data.filter (typeMatches tk2)))) [] [] := rfl
  rw [hEq1, hEq2]
  have hfil : data.filter (typeMatches tk1) = data.filter (typeMatches tk2) := by
    apply List.filter_congr
    intro d _
    unfold typeMatches
    rw [h]
  rw [hfil]

/-- A cache hit is a recorded binding. -/
theorem lookupCache_mem (key : String) (v : List String) :
    ∀ c : List (String × List String), lookupCache key c = some v → (key, v) ∈ c := by
  intro c
  induction c with
  | nil => intro h; cases h
  | cons p rest ih =>
    intro h
    obtain ⟨k2, v2⟩ := p
    unfold lookupCache at h
    by_cases hk : k2 = key
    · rw [if_pos hk] at h
      rcases Option.some.inj h with rfl
      rw [hk]
      exact List.mem_cons_self _ _
    · rw [if_neg hk] at h
      exact List.mem_cons_of_mem _ (ih h)

/-- Under the cache invariant the cached lookup returns the uncached
result. -/
theorem getDistinctSessionDatesCached_fst (data : List LogEntry)
    (c : List (String × List String)) (tk : String) (n : Nat)
    (hinv : ∀ p ∈ c, ∃ tk2 n2, p.1 = cacheKey tk2 n2 ∧
      p.2 = getDistinctSessionDates data tk2 n2) :
    (getDistinctSessionDatesCached c data tk n).1 = getDistinctSessionDates data tk n := by
  cases hl : lookupCache (cacheKey tk n) c with
  | some v =>
    have hred : getDistinctSessionDatesCached c data tk n = (v, c) := by
      unfold getDistinctSessionDatesCached
      rw [hl]
    rw [hred]
    have hmem := lookupCache_mem (cacheKey tk n) v c hl
    obtain ⟨tk2, n2, hkey, hval⟩ := hinv _ hmem
    obtain ⟨hlw, hn⟩ := cacheKey_inj tk tk2 n n2 hkey
    subst hn
    have hval2 : v = getDistinctSessionDates data tk2 n := hval
    rw [hval2, getDistinctSessionDates_congr_lower data tk2 tk hlw.symm n]
  | none =>
    have hred : getDistinctSessionDatesCached c data tk n =
        (getDistinctSessionDates data tk n,
          (if 20 ≤ c.length then c.drop 1 else c) ++
            [(cacheKey tk n, getDistinctSessionDates data tk n)]) := by
      unfold getDistinctSessionDatesCached
      rw [hl]
    rw [hred]

/-- One cached lookup preserves the cache invariant. -/
theorem getDistinctSessionDatesCached_inv (data : List LogEntry)
    (c : List (String × List String)) (tk : String) (n : Nat)
    (hinv : ∀ p ∈ c, ∃ tk2 n2, p.1 = cacheKey tk2 n2 ∧
      p.2 = getDistinctSessionDates data tk2 n2) :
    ∀ p ∈ (getDistinctSessionDatesCached c data tk n).2, ∃ tk2 n2,
      p.1 = cacheKey tk2 n2 ∧ p.2 = getDistinctSessionDates data tk2 n2 := by
  cases hl : lookupCache (cacheKey tk n) c with
  | some v =>
    have hred : getDistinctSessionDatesCached c data tk n = (v, c) := by
      unfold getDistinctSessionDatesCached
      rw [hl]
    rw [hred]
    intro p hp
    exact hinv p hp
  | none =>
    have hred : getDistinctSessionDatesCached c data tk n =
        (getDistinctSessionDates data tk n,
          (if 20 ≤ c.length then c.drop 1 else c) ++
            [(cacheKey tk n, getDistinctSessionDates data tk n)]) := by
      unfold getDistinctSessionDatesCached
      rw [hl]
    rw [hred]
    intro p hp
    rcases List.mem_append.mp hp with h1 | h2
    · by_cases hfull : 20 ≤ c.length
      · rw [if_pos hfull] at h1
        exact hinv p (List.mem_of_mem_drop h1)
      · rw [if_neg hfull] at h1
        exact hinv p h1
    · rcases List.mem_singleton.mp h2 with rfl
      exact ⟨tk, n, rfl, rfl⟩

/-- Every reachable cache state satisfies the cache invariant. -/
theorem cacheReachable_inv (data : List LogEntry) (c : List (String × List String))
    (h : CacheReachable data c) :
    ∀ p ∈ c, ∃ tk2 n2, p.1 = cacheKey tk2 n2 ∧
      p.2 = getDistinctSessionDates data tk2 n2 := by
  induction h with
  | nil => intro p hp; cases hp
  | step tk n _ ih => exact getDistinctSessionDatesCached_inv data _ tk n ih

/-- C9: over a fixed data array, every call of any sequence of cached
lookups starting from the empty cache returns exactly what the uncached
first-revision scan returns, so the 20-entry cache is observationally
equivalent to no cache. -/
theorem cachedDistinctDates_observationally_pure (data : List LogEntry)
    (calls : List (String × Nat)) :
    runDistinctCalls data [] calls =
      calls.map (fun p => getDistinctSessionDates data p.1 p.2) := by
  suffices h : ∀ (cs : List (String × Nat)) (c : List (String × List String)),
      (∀ p ∈ c, ∃ tk2 n2, p.1 = cacheKey tk2 n2 ∧
        p.2 = getDistinctSessionDates data tk2 n2) →
      runDistinctCalls data c cs = cs.map (fun p => getDistinctSessionDates data p.1 p.2) by
    exact h calls [] (fun p hp => absurd hp (List.not_mem_nil p))
  intro cs
  induction cs with
  | nil => intro c _; rfl
  | cons q rest ih =>
    intro c hinv
    obtain ⟨tk, n⟩ := q
    unfold runDistinctCalls
    rw [getDistinctSessionDatesCached_fst data c tk n hinv, List.map_cons,
      ih _ (getDistinctSessionDatesCached_inv data c tk n hinv)]

/-- The lookup part of the second-revision resolver returns the same
workout from any two caches satisfying the invariant. -/
theorem currentWorkout2Lookup_fst_congr (seed : List LogEntry) (ty v : String)
    (c1 c2 : List (String × List String))
    (h1 : ∀ p ∈ c1, ∃ tk2 n2, p.1 = cacheKey tk2 n2 ∧
      p.2 = getDistinctSessionDates seed tk2 n2)
    (h2 : ∀ p ∈ c2, ∃ tk2 n2, p.1 = cacheKey tk2 n2 ∧
      p.2 = getDistinctSessionDates seed tk2 n2) :
    (currentWorkout2.currentWorkout2Lookup seed ty v c1).1 =
      (currentWorkout2.currentWorkout2Lookup seed ty v c2).1 := by
  unfold currentWorkout2.currentWorkout2Lookup
  by_cases hty : ty = "Legs"
  · subst hty
    simp only [reduceIte]
    by_cases hv : v = "KOT"
    · subst hv
      simp only [reduceIte]
    · simp only [if_neg hv]
      simp only [getDistinctSessionDatesCached_fst seed c1 _ _ h1,
        getDistinctSessionDatesCached_fst seed c2 _ _ h2]
  · simp only [if_neg hty]
    simp only [getDistinctSessionDatesCached_fst seed c1 _ _ h1,
      getDistinctSessionDatesCached_fst seed c2 _ _ h2]

/-- C4: resolving the current workout is deterministic in the inputs:
with the same seed data, overrides, type and variation, the resolver
returns the same workout from any two reachable states of the hidden
lookup cache, so no prior call sequence can change the result.  The
first-revision resolver is a pure function of the same inputs. -/
theorem currentWorkout_deterministic (seed : List LogEntry)
    (ov : String → String → Option OvData) (ty v : String)
    (c1 c2 : List (String × List String))
    (h1 : CacheReachable seed c1) (h2 : CacheReachable seed c2) :
    (currentWorkout2 seed ov ty v c1).1 = (currentWorkout2 seed ov ty v c2).1 := by
  have hi1 := cacheReachable_inv seed c1 h1
  have hi2 := cacheReachable_inv seed c2 h2
  unfold currentWorkout2
  cases hov : (ov ty v).bind (fun o => o.exercises) with
  | some l =>
    dsimp only
    by_cases hl : l ≠ []
    · rw [if_pos hl, if_pos hl]
    · rw [if_neg hl, if_neg hl]
      exact currentWorkout2Lookup_fst_congr seed ty v c1 c2 hi1 hi2
  | none =>
    dsimp only
    exact currentWorkout2Lookup_fst_congr seed ty v c1 c2 hi1 hi2

/-- Witness for C4: the resolver returns the same workout from the empty
cache and from a cache primed by an unrelated lookup. -/
theorem currentWorkout_deterministic_witness :
    (currentWorkout2 [sampleBench, sampleOhp, sampleBench2] (fun _ _ => none) "Push" "A" []).1 =
      (currentWorkout2 [sampleBench, sampleOhp, sampleBench2] (fun _ _ => none) "Push" "A"
        (getDistinctSessionDatesCached [] [sampleBench, sampleOhp, sampleBench2] "Pull" 3).2).1 :=
  currentWorkout_deterministic [sampleBench, sampleOhp, sampleBench2] (fun _ _ => none)
    "Push" "A" [] _ CacheReachable.nil
    (CacheReachable.step "Pull" 3 CacheReachable.nil)
